import Mathlib

/-!
Verification of the terminal-repeat detection engine of tr-trimmer.

The engine (src/src/tr.rs) is shallowly embedded here: byte sequences are
lists of naturals (byte values), the pure Rust functions become Lean
functions, and Rust f64 fraction comparisons are modelled exactly over the
rationals, with the zero-denominator case (NaN in IEEE arithmetic) made
explicit.
-/

set_option autoImplicit false

namespace TrTrimmer

/-- Lowercasing of a single ASCII byte, as in Rust `u8::to_ascii_lowercase`:
bytes 65..=90 (uppercase letters) get 32 added, all other bytes pass through. -/
def toLowerByte (b : ℕ) : ℕ :=
  if 65 ≤ b ∧ b ≤ 90 then b + 32 else b

/-- Case-insensitive slice equality, as in Rust `<[u8]>::eq_ignore_ascii_case`:
the two slices are equal after lowercasing each byte (unequal lengths compare
unequal). -/
def eqIgnoreCase (a b : List ℕ) : Bool :=
  decide (a.map toLowerByte = b.map toLowerByte)

/-- The match condition tested by the DTR scan at candidate length `L`: the
leading `L` bytes of the sequence equal its trailing `L` bytes, ignoring ASCII
case (src/src/tr.rs, body of the `for` loop of `find_dtr`). -/
def matchesAt (sequence : List ℕ) (L : ℕ) : Bool :=
  eqIgnoreCase (sequence.take L) (sequence.drop (sequence.length - L))

/-- The descending list `[m + cnt - 1, ..., m + 1, m]`: the iteration order of
Rust `(m..=m+cnt-1).rev()`. With `cnt = seq_len / 2 + 1 - min_length` this is
exactly the candidate-length order `(min_length..=seq_len / 2).rev()` of
`find_dtr` (empty when `min_length > seq_len / 2`, as in Rust). -/
def descFrom (m : ℕ) : ℕ → List ℕ
  | 0 => []
  | cnt + 1 => (m + cnt) :: descFrom m cnt

/-- Embedding of `find_dtr` (src/src/tr.rs). Returns early when the sequence
is shorter than twice the minimum length; otherwise returns the first
(longest) candidate length at which the leading and trailing windows match
case-insensitively, and `(false, 0)` when no candidate matches. -/
def find_dtr (sequence : List ℕ) (min_length : ℕ) : Bool × ℕ :=
  if sequence.length < min_length * 2 then (false, 0)
  else
    match (descFrom min_length (sequence.length / 2 + 1 - min_length)).find?
        (fun L => matchesAt sequence L) with
    | some length => (true, length)
    | none => (false, 0)

/-- Complement of one nucleotide byte, as implemented by the external
sequence-utility collaborator (needletail `complement`, spec section 6):
standard base pairing `a<->t`, `c<->g` preserving ASCII case, `u -> a`,
IUPAC codes mapped to their complements, every other byte passed through. -/
def complementBase (b : ℕ) : ℕ :=
  if b = 97 then 116 else if b = 65 then 84
  else if b = 99 then 103 else if b = 67 then 71
  else if b = 103 then 99 else if b = 71 then 67
  else if b = 116 then 97 else if b = 84 then 65
  else if b = 117 then 97 else if b = 85 then 65
  else if b = 114 then 121 else if b = 121 then 114
  else if b = 107 then 109 else if b = 109 then 107
  else if b = 98 then 118 else if b = 118 then 98
  else if b = 100 then 104 else if b = 104 then 100
  else if b = 82 then 89 else if b = 89 then 82
  else if b = 75 then 77 else if b = 77 then 75
  else if b = 66 then 86 else if b = 86 then 66
  else if b = 68 then 72 else if b = 72 then 68
  else b

/-- Reverse complement of a sequence, as produced by the external collaborator
(spec sections 3 and 6): the sequence reversed, with each byte complemented. -/
def reverse_complement (sequence : List ℕ) : List ℕ :=
  sequence.reverse.map complementBase

/-- The ITR extension loop of `find_itr` (src/src/tr.rs):
`while i <= seq_len / 2 && sequence[..i].eq_ignore_ascii_case(&rev_complement[..i]) { i += 1 }`,
returning the final value of `i`. The first argument is a fuel counter; in
`itrExtend` it is instantiated with `half + 1 - i`, an upper bound on the
number of remaining iterations (the loop guard `i <= half` fails as soon as
`i` reaches `half + 1`), so the fueled recursion computes exactly the loop. -/
def itrLoop (sequence rc : List ℕ) (half : ℕ) : ℕ → ℕ → ℕ
  | 0, i => i
  | fuel + 1, i =>
    if i ≤ half ∧ eqIgnoreCase (sequence.take i) (rc.take i) = true then
      itrLoop sequence rc half fuel (i + 1)
    else i

/-- The value of `i` at exit of the extension loop of `find_itr`, started at
`i` with loop bound `half = seq_len / 2`. -/
def itrExtend (sequence rc : List ℕ) (half i : ℕ) : ℕ :=
  itrLoop sequence rc half (half + 1 - i) i

/-- Embedding of `find_itr` (src/src/tr.rs). Computes the reverse complement,
returns early on short sequences, anchors on exact equality of the leading
`min_length` bytes of the sequence and of its reverse complement, then extends
greedily and reports the last confirmed-equal length `i - 1`. -/
def find_itr (sequence : List ℕ) (min_length : ℕ) : Bool × ℕ :=
  if sequence.length < min_length * 2 then (false, 0)
  else if sequence.take min_length = (reverse_complement sequence).take min_length then
    (true, itrExtend sequence (reverse_complement sequence) (sequence.length / 2) min_length - 1)
  else (false, 0)

/-- Modelled from the spec: the low-complexity oracle `dustmasker` lives in
src/sdust.rs, which is declared in src/main.rs (`mod sdust;`) but absent from
the sources. The spec (section 6) fixes only its interface: given a sequence,
a window size and a score threshold it returns ordered, disjoint half-open
ranges `(start, end)` over sequence positions. It is therefore modelled as an
arbitrary function of that type, and every theorem quantifies over it. -/
def MaskOracle : Type :=
  List ℕ → ℕ → ℕ → List (ℕ × ℕ)

/-- The fraction comparison `(n as f64) / (t as f64) <= maxFrac` shared by
both filters (src/src/tr.rs). When `t = 0` the IEEE division yields NaN
(for `n = 0`, the only reachable case) or positive infinity, and either way
the `<=` comparison is false, so the Rust expression evaluates to `false`;
this case is made explicit. When `t > 0` the real-valued comparison
`n / t <= maxFrac` is modelled exactly over the rationals, written in the
equivalent cross-multiplied integer form `n * maxFrac.den <= maxFrac.num * t`
so that it evaluates by kernel reduction; the lemma `fracLe_eq_div` below
proves it equal to the direct rational-division form. -/
def fracLe (n t : ℕ) (maxFrac : ℚ) : Bool :=
  if t = 0 then false
  else decide ((n : ℤ) * (maxFrac.den : ℤ) ≤ maxFrac.num * (t : ℤ))

/-- Sanity check for the modelling of the filter comparison: for a nonzero
repeat length the cross-multiplied form coincides with the rational division
`n / t ≤ maxFrac` from the source expression. -/
theorem fracLe_eq_div (n t : ℕ) (maxFrac : ℚ) (ht : 0 < t) :
    fracLe n t maxFrac = decide ((n : ℚ) / (t : ℚ) ≤ maxFrac) := by
  have ht' : (0 : ℚ) < (t : ℚ) := by exact_mod_cast ht
  have hden : (0 : ℚ) < (maxFrac.den : ℚ) := by exact_mod_cast maxFrac.den_pos
  have hdz : (maxFrac.den : ℚ) ≠ 0 := ne_of_gt hden
  have hq : (maxFrac.num : ℚ) = maxFrac * (maxFrac.den : ℚ) :=
    (Rat.mul_den_eq_num maxFrac).symm
  rw [fracLe, if_neg (by omega : ¬ t = 0), decide_eq_decide, div_le_iff₀ ht']
  constructor
  · intro h
    have h2 : (n : ℚ) * (maxFrac.den : ℚ) ≤ (maxFrac.num : ℚ) * (t : ℚ) := by exact_mod_cast h
    have h3 : (n : ℚ) * (maxFrac.den : ℚ) ≤ maxFrac * (t : ℚ) * (maxFrac.den : ℚ) := by
      calc (n : ℚ) * (maxFrac.den : ℚ) ≤ (maxFrac.num : ℚ) * (t : ℚ) := h2
        _ = maxFrac * (t : ℚ) * (maxFrac.den : ℚ) := by rw [hq]; ring
    exact le_of_mul_le_mul_right h3 hden
  · intro h
    have h3 : (n : ℚ) * (maxFrac.den : ℚ) ≤ maxFrac * (t : ℚ) * (maxFrac.den : ℚ) :=
      mul_le_mul_of_nonneg_right h (le_of_lt hden)
    have h2 : (n : ℚ) * (maxFrac.den : ℚ) ≤ (maxFrac.num : ℚ) * (t : ℚ) := by
      calc (n : ℚ) * (maxFrac.den : ℚ) ≤ maxFrac * (t : ℚ) * (maxFrac.den : ℚ) := h3
        _ = (maxFrac.num : ℚ) * (t : ℚ) := by rw [hq]; ring
    exact_mod_cast h2

/-- Embedding of `evaluate_tr_complexity` (src/src/tr.rs): sums, over the mask
ranges that start before `tr_length` (an initial segment of the sorted mask,
via `take_while`), the sizes of their clamped intersections with
`[0, tr_length)`, and accepts when the low-complexity fraction of the repeat
does not exceed `max_lc_frac`. The oracle call `dustmasker(sequence, 32, 30)`
becomes `mask sequence 32 30`. -/
def evaluate_tr_complexity (mask : MaskOracle) (sequence : List ℕ) (tr_length : ℕ)
    (max_lc_frac : ℚ) : Bool :=
  fracLe
    (((mask sequence 32 30).takeWhile (fun r => decide (r.1 < tr_length))).map
      (fun r => min r.2 tr_length - r.1)).sum
    tr_length max_lc_frac

/-- Normalization of one nucleotide byte with `iupac = false`, as implemented
by the external collaborator (needletail `normalize`, spec section 6):
`A/C/G/T` pass through, lowercase is uppercased, `t/u/U` become `T`, the gap
bytes `.` and `~` become `-`, and every other byte becomes `N` (78). -/
def normalizeBase (b : ℕ) : ℕ :=
  if b = 65 ∨ b = 67 ∨ b = 71 ∨ b = 84 then b
  else if b = 97 then 65
  else if b = 99 then 67
  else if b = 103 then 71
  else if b = 116 ∨ b = 117 ∨ b = 85 then 84
  else if b = 46 ∨ b = 126 then 45
  else 78

/-- Embedding of `evaluate_ambiguous_bases` (src/src/tr.rs): counts the bytes
equal to `N` (78) among the leading `tr_length` bytes of the normalized
sequence, and accepts when the ambiguous fraction of the repeat does not
exceed `max_ambig_frac`. -/
def evaluate_ambiguous_bases (sequence : List ℕ) (tr_length : ℕ)
    (max_ambig_frac : ℚ) : Bool :=
  fracLe
    (((sequence.map normalizeBase).take tr_length).filter (fun b => b == 78)).length
    tr_length max_ambig_frac

/-- Embedding of `find_repeats` (src/src/tr.rs), the repeat resolution policy.
The structure mirrors the Rust control flow: the DTR block runs unless
disabled and returns whenever a DTR was found or ITR identification is
disabled; otherwise the ITR block runs when enabled; each block applies at
most one filter (complexity before ambiguity), reporting `(false, false,
tr_length)` on rejection; the fallthrough returns `(false, false, 0)`. The
extra `mask` argument is the modelled low-complexity oracle. -/
def find_repeats (mask : MaskOracle) (sequence : List ℕ) (min_length : ℕ)
    (disable_dtr_identification enable_itr_identification : Bool)
    (ignore_low_complexity : Bool) (max_low_complexity_frac : ℚ)
    (ignore_ambiguous : Bool) (max_ambiguous_frac : ℚ) : Bool × Bool × ℕ :=
  if !disable_dtr_identification &&
      ((find_dtr sequence min_length).1 || !enable_itr_identification) then
    if ignore_low_complexity then
      if evaluate_tr_complexity mask sequence (find_dtr sequence min_length).2
          max_low_complexity_frac then
        ((find_dtr sequence min_length).1, false, (find_dtr sequence min_length).2)
      else (false, false, (find_dtr sequence min_length).2)
    else if ignore_ambiguous then
      if evaluate_ambiguous_bases sequence (find_dtr sequence min_length).2
          max_ambiguous_frac then
        ((find_dtr sequence min_length).1, false, (find_dtr sequence min_length).2)
      else (false, false, (find_dtr sequence min_length).2)
    else ((find_dtr sequence min_length).1, false, (find_dtr sequence min_length).2)
  else if enable_itr_identification then
    if ignore_low_complexity then
      if evaluate_tr_complexity mask sequence (find_itr sequence min_length).2
          max_low_complexity_frac then
        (false, (find_itr sequence min_length).1, (find_itr sequence min_length).2)
      else (false, false, (find_itr sequence min_length).2)
    else if ignore_ambiguous then
      if evaluate_ambiguous_bases sequence (find_itr sequence min_length).2
          max_ambiguous_frac then
        (false, (find_itr sequence min_length).1, (find_itr sequence min_length).2)
      else (false, false, (find_itr sequence min_length).2)
    else (false, (find_itr sequence min_length).1, (find_itr sequence min_length).2)
  else (false, false, 0)

/-- The fraction `1/2` in reduced form, so that its numerator and denominator
evaluate by kernel reduction; used as a concrete threshold in witnesses. It
equals the rational `1/2` (see `oneHalf_eq`). -/
def oneHalf : ℚ := ⟨1, 2, by decide, by decide⟩

/-- Sanity check: the reduced-form literal is the rational one half. -/
theorem oneHalf_eq : oneHalf = 1 / 2 := by
  norm_num [oneHalf, Rat.mk'_eq_divInt, Rat.divInt_eq_div]

/-- A byte-for-byte equal pair of slices is also equal ignoring ASCII case,
as in Rust where `eq` implies `eq_ignore_ascii_case`. -/
theorem eqIgnoreCase_of_eq {a b : List ℕ} (h : a = b) : eqIgnoreCase a b = true := by
  subst h
  simp [eqIgnoreCase]

/-- On the descending candidate list, `find?` returns the first hit, so any
candidate satisfying the predicate is bounded by the returned one. -/
theorem descFrom_find?_ge (p : ℕ → Bool) :
    ∀ (cnt m y : ℕ), m ≤ y → y < m + cnt → p y = true →
      ∃ z, (descFrom m cnt).find? p = some z ∧ y ≤ z := by
  intro cnt
  induction cnt with
  | zero => intro m y h1 h2 _; omega
  | succ k ih =>
    intro m y h1 h2 hp
    by_cases htop : p (m + k) = true
    · exact ⟨m + k, by simp [descFrom, List.find?_cons_of_pos, htop], by omega⟩
    · have hy : y < m + k := by
        rcases Nat.lt_succ_iff_lt_or_eq.mp (by omega : y < (m + k) + 1) with h | h
        · omega
        · exact absurd (h ▸ hp) htop
      obtain ⟨z, hz, hyz⟩ := ih m y h1 (by omega) hp
      refine ⟨z, ?_, hyz⟩
      simpa [descFrom, List.find?_cons_of_neg, htop] using hz

/-- A hit returned by `find?` on the descending candidate list lies in the
candidate interval and satisfies the predicate. -/
theorem descFrom_find?_some (p : ℕ → Bool) :
    ∀ (cnt m z : ℕ), (descFrom m cnt).find? p = some z →
      m ≤ z ∧ z < m + cnt ∧ p z = true := by
  intro cnt
  induction cnt with
  | zero => intro m z h; simp [descFrom] at h
  | succ k ih =>
    intro m z h
    by_cases htop : p (m + k) = true
    · rw [show descFrom m (k + 1) = (m + k) :: descFrom m k from rfl,
        List.find?_cons_of_pos _ htop] at h
      obtain rfl : m + k = z := by simpa using h
      exact ⟨by omega, by omega, htop⟩
    · rw [show descFrom m (k + 1) = (m + k) :: descFrom m k from rfl,
        List.find?_cons_of_neg _ (by simpa using htop)] at h
      obtain ⟨hz1, hz2, hz3⟩ := ih m z h
      exact ⟨hz1, by omega, hz3⟩

/-- The DTR scan is exhaustive from the top: every valid candidate length in
the scanned interval is a lower bound for the returned length. -/
theorem dtr_max (sequence : List ℕ) (min_length L : ℕ) (h1 : min_length ≤ L)
    (h2 : L ≤ sequence.length / 2) (h3 : matchesAt sequence L = true) :
    (find_dtr sequence min_length).1 = true ∧ L ≤ (find_dtr sequence min_length).2 := by
  obtain ⟨z, hz, hyz⟩ := descFrom_find?_ge (fun L2 => matchesAt sequence L2)
    (sequence.length / 2 + 1 - min_length) min_length L h1 (by omega) h3
  unfold find_dtr
  rw [if_neg (by omega : ¬ sequence.length < min_length * 2), hz]
  exact ⟨rfl, hyz⟩

/-- The DTR detector never reports a length above half the sequence length. -/
theorem dtr_le_half (sequence : List ℕ) (min_length : ℕ) :
    (find_dtr sequence min_length).2 ≤ sequence.length / 2 := by
  unfold find_dtr
  split
  · simp
  · split
    · next z hz =>
      obtain ⟨_, hlt, _⟩ := descFrom_find?_some _ _ _ _ hz
      simp only
      omega
    · simp

/-- When the DTR detector reports a repeat, its length is at least the
configured minimum. -/
theorem dtr_found_min (sequence : List ℕ) (min_length : ℕ)
    (h : (find_dtr sequence min_length).1 = true) :
    min_length ≤ (find_dtr sequence min_length).2 := by
  unfold find_dtr at *
  split at h
  · simp at h
  · split at h
    · next z hz =>
      obtain ⟨hge, _, _⟩ := descFrom_find?_some _ _ _ _ hz
      split
      · omega
      · simpa using hge
    · simp at h

/-- When the DTR detector finds nothing the whole result is `(false, 0)`. -/
theorem dtr_not_found (sequence : List ℕ) (min_length : ℕ)
    (h : (find_dtr sequence min_length).1 = false) :
    find_dtr sequence min_length = (false, 0) := by
  unfold find_dtr at *
  split at h
  · split
    · rfl
    · omega
  · split at h
    · simp at h
    · split <;> rfl

/-- The extension loop never decreases its counter. -/
theorem itrLoop_ge (sequence rc : List ℕ) (half : ℕ) :
    ∀ (fuel i : ℕ), i ≤ itrLoop sequence rc half fuel i := by
  intro fuel
  induction fuel with
  | zero => intro i; simp [itrLoop]
  | succ k ih =>
    intro i
    rw [itrLoop]
    split
    · exact le_trans (by omega) (ih (i + 1))
    · exact le_refl i

/-- The extension loop never runs the counter past `half + 1`. -/
theorem itrLoop_le (sequence rc : List ℕ) (half : ℕ) :
    ∀ (fuel i : ℕ), i ≤ half + 1 → itrLoop sequence rc half fuel i ≤ half + 1 := by
  intro fuel
  induction fuel with
  | zero => intro i h; simpa [itrLoop] using h
  | succ k ih =>
    intro i h
    rw [itrLoop]
    split
    · next hc => exact ih (i + 1) (by omega)
    · exact h

/-- The ITR detector never reports a length above half the sequence length. -/
theorem itr_le_half (sequence : List ℕ) (min_length : ℕ) :
    (find_itr sequence min_length).2 ≤ sequence.length / 2 := by
  unfold find_itr
  split
  · simp
  · next hguard =>
    split
    · simp only [itrExtend]
      have := itrLoop_le sequence (reverse_complement sequence) (sequence.length / 2)
        (sequence.length / 2 + 1 - min_length) min_length (by omega)
      omega
    · simp

/-- When the ITR detector reports a repeat, its length is at least the
configured minimum. -/
theorem itr_found_min (sequence : List ℕ) (min_length : ℕ)
    (h : (find_itr sequence min_length).1 = true) :
    min_length ≤ (find_itr sequence min_length).2 := by
  unfold find_itr at *
  split at h
  · simp at h
  · next hguard =>
    split at h
    · next heq =>
      have hm : min_length ≤ sequence.length / 2 := by omega
      rw [if_neg (by omega : ¬ sequence.length < min_length * 2), if_pos heq]
      simp only [itrExtend]
      rw [show sequence.length / 2 + 1 - min_length
          = (sequence.length / 2 - min_length) + 1 from by omega, itrLoop]
      rw [if_pos ⟨hm, eqIgnoreCase_of_eq heq⟩]
      have h2 := itrLoop_ge sequence (reverse_complement sequence) (sequence.length / 2)
        (sequence.length / 2 - min_length) (min_length + 1)
      show min_length ≤ itrLoop sequence (reverse_complement sequence) (sequence.length / 2)
        (sequence.length / 2 - min_length) (min_length + 1) - 1
      omega
    · simp at h

/-- When the ITR detector finds nothing the whole result is `(false, 0)`. -/
theorem itr_not_found (sequence : List ℕ) (min_length : ℕ)
    (h : (find_itr sequence min_length).1 = false) :
    find_itr sequence min_length = (false, 0) := by
  unfold find_itr at *
  split at h
  · rw [if_pos (by omega)]
  · next hguard =>
    split at h
    · simp at h
    · next hne => rw [if_neg (by omega), if_neg hne]

/-- The complexity filter invoked with a zero-length repeat returns `false`
silently: the mask contributes nothing before position 0, and the resulting
`0.0 / 0.0` is NaN, which fails the `<=` comparison. -/
theorem evaluate_tr_complexity_zero (mask : MaskOracle) (sequence : List ℕ) (q : ℚ) :
    evaluate_tr_complexity mask sequence 0 q = false := by
  simp [evaluate_tr_complexity, fracLe]

/-- The ambiguity filter invoked with a zero-length repeat returns `false`
silently, for the same NaN reason. -/
theorem evaluate_ambiguous_bases_zero (sequence : List ℕ) (q : ℚ) :
    evaluate_ambiguous_bases sequence 0 q = false := by
  simp [evaluate_ambiguous_bases, fracLe]

/-- C1: For every sequence, every configuration and every low-complexity
oracle, the classification tuple returned by find_repeats has at most one of
has_dtr and has_itr equal to true. -/
theorem c1_at_most_one_flag (mask : MaskOracle) (sequence : List ℕ) (min_length : ℕ)
    (ddtr eitr ilc iamb : Bool) (mlc mamb : ℚ) :
    ((find_repeats mask sequence min_length ddtr eitr ilc mlc iamb mamb).1
      && (find_repeats mask sequence min_length ddtr eitr ilc mlc iamb mamb).2.1) = false := by
  unfold find_repeats
  repeat' split
  all_goals simp

/-- C10: For every sequence, every configuration and every low-complexity
oracle, the tr_length field returned by find_repeats is at most half the
sequence length: no reported repeat, accepted or rejected, covers more than
half of the sequence. -/
theorem c10_half_bound (mask : MaskOracle) (sequence : List ℕ) (min_length : ℕ)
    (ddtr eitr ilc iamb : Bool) (mlc mamb : ℚ) :
    (find_repeats mask sequence min_length ddtr eitr ilc mlc iamb mamb).2.2
      ≤ sequence.length / 2 := by
  unfold find_repeats
  repeat' split
  all_goals first
    | exact dtr_le_half sequence min_length
    | exact itr_le_half sequence min_length
    | exact Nat.zero_le _

/-- C7: For every sequence and configuration with both filters enabled,
find_repeats returns exactly the same classification as the same call with
ignore_ambiguous cleared: the complexity filter takes precedence and the
ambiguity filter never influences the result. -/
theorem c7_ambiguity_filter_shadowed (mask : MaskOracle) (sequence : List ℕ)
    (min_length : ℕ) (ddtr eitr : Bool) (mlc mamb : ℚ) :
    find_repeats mask sequence min_length ddtr eitr true mlc true mamb
      = find_repeats mask sequence min_length ddtr eitr true mlc false mamb := rfl

/-- C5: For every sequence shorter than twice the minimum length, both
detectors return (false, 0). -/
theorem c5_short_sequence (sequence : List ℕ) (min_length : ℕ)
    (h : sequence.length < 2 * min_length) :
    find_dtr sequence min_length = (false, 0)
  ∧ find_itr sequence min_length = (false, 0) := by
  constructor
  · unfold find_dtr
    rw [if_pos (by omega)]
  · unfold find_itr
    rw [if_pos (by omega)]

/-- Witness for C5 at the one-byte sequence with min_length 1. -/
theorem c5_witness :
    ([65] : List ℕ).length < 2 * 1
  ∧ (find_dtr [65] 1 = (false, 0) ∧ find_itr [65] 1 = (false, 0)) :=
  ⟨by decide, c5_short_sequence [65] 1 (by decide)⟩

/-- C6: For every sequence and positive min_length, when find_itr reports
found the returned length is at least min_length; and when the leading
min_length bytes of the sequence and of its reverse complement differ
exactly, find_itr returns (false, 0) with no search for a shorter match. -/
theorem c6_itr_anchoring (sequence : List ℕ) (min_length : ℕ) (_hpos : 0 < min_length) :
    ((find_itr sequence min_length).1 = true →
      min_length ≤ (find_itr sequence min_length).2)
  ∧ (sequence.take min_length ≠ (reverse_complement sequence).take min_length →
      find_itr sequence min_length = (false, 0)) := by
  refine ⟨fun hf => itr_found_min sequence min_length hf, fun hne => ?_⟩
  by_cases hg : sequence.length < min_length * 2
  · unfold find_itr
    rw [if_pos hg]
  · unfold find_itr
    rw [if_neg hg, if_neg hne]

/-- Witness for C6: the self-complementary eight-byte sequence ACGTACGT with
min_length 4 yields an ITR of length 4, and the sequence AA with min_length 1
has unequal leading bytes and yields (false, 0). -/
theorem c6_witness :
    (0 < 4 ∧ 4 ≤ (find_itr [65, 67, 71, 84, 65, 67, 71, 84] 4).2)
  ∧ (0 < 1
      ∧ ([65, 65] : List ℕ).take 1 ≠ (reverse_complement [65, 65]).take 1
      ∧ find_itr [65, 65] 1 = (false, 0)) :=
  ⟨⟨by decide, (c6_itr_anchoring [65, 67, 71, 84, 65, 67, 71, 84] 4 (by decide)).1 (by decide)⟩,
   ⟨by decide, by decide, (c6_itr_anchoring [65, 65] 1 (by decide)).2 (by decide)⟩⟩

/-- C2 as stated is false: on the sequence AAA with min_length 1, the
candidate length 2 lies between min_length and the sequence length and
satisfies the match condition (the leading two bytes AA equal the trailing
two bytes AA), yet find_dtr returns length 1, because the scan only ranges up
to half the sequence length. -/
theorem c2_counterexample :
    1 ≤ 2 ∧ 2 ≤ ([65, 65, 65] : List ℕ).length
  ∧ matchesAt [65, 65, 65] 2 = true
  ∧ find_dtr [65, 65, 65] 1 = (true, 1)
  ∧ ¬ (2 ≤ (find_dtr [65, 65, 65] 1).2) := by decide

/-- C2 amended: for every candidate length L with min_length <= L <= half the
sequence length (the interval the scan actually ranges over), if L satisfies
the match condition then the length returned by find_dtr is at least L. -/
theorem c2_dtr_maximal (sequence : List ℕ) (min_length L : ℕ)
    (h1 : min_length ≤ L) (h2 : L ≤ sequence.length / 2)
    (h3 : matchesAt sequence L = true) :
    L ≤ (find_dtr sequence min_length).2 :=
  (dtr_max sequence min_length L h1 h2 h3).2

/-- Witness for the amended C2 on the sequence ACGTACGT with min_length 4 and
candidate length 4. -/
theorem c2_witness :
    4 ≤ 4 ∧ 4 ≤ ([65, 67, 71, 84, 65, 67, 71, 84] : List ℕ).length / 2
  ∧ matchesAt [65, 67, 71, 84, 65, 67, 71, 84] 4 = true
  ∧ 4 ≤ (find_dtr [65, 67, 71, 84, 65, 67, 71, 84] 4).2 :=
  ⟨by decide, by decide, by decide,
   c2_dtr_maximal [65, 67, 71, 84, 65, 67, 71, 84] 4 4 (by decide) (by decide) (by decide)⟩

/-- C3 as stated is false: invoking either filter directly with tr_length 0
does not fail with a domain error; each call silently returns the boolean
false (the 0.0 / 0.0 division yields NaN, which fails the <= comparison). -/
theorem c3_counterexample :
    evaluate_tr_complexity (fun _ _ _ => []) [65, 67, 71, 84] 0 oneHalf = false
  ∧ evaluate_ambiguous_bases [65, 67, 71, 84] 0 oneHalf = false := by decide

/-- C3 amended: for every sequence, every oracle and every threshold,
invoking evaluate_tr_complexity or evaluate_ambiguous_bases directly with
tr_length = 0 silently returns the boolean false (the NaN produced by the
zero division fails the <= comparison); no error is raised. -/
theorem c3_zero_length_silent (mask : MaskOracle) (sequence : List ℕ) (q1 q2 : ℚ) :
    evaluate_tr_complexity mask sequence 0 q1 = false
  ∧ evaluate_ambiguous_bases sequence 0 q2 = false :=
  ⟨evaluate_tr_complexity_zero mask sequence q1,
   evaluate_ambiguous_bases_zero sequence q2⟩

/-- C8 as stated is false: the sequence ACGT has length 4, which is shorter
than 2 * min_length = 8, so with min_length 4, ITR identification enabled and
DTR identification disabled the engine detects nothing and returns
(false, false, 0) rather than an ITR of length floor(4 / 2) = 2. -/
theorem c8_counterexample :
    find_itr [65, 67, 71, 84] 4 = (false, 0)
  ∧ find_repeats (fun _ _ _ => []) [65, 67, 71, 84] 4 true true false oneHalf false oneHalf
      = (false, false, 0) := by decide

/-- C8 amended: for the self-complementary sequence ACGTACGT (length 8, equal
to its own reverse complement) with min_length 4, ITR identification enabled
and DTR identification disabled, the engine detects an ITR of length
floor(length / 2) = 4, the extension loop reaching the half-length boundary. -/
theorem c8_self_complementary (mask : MaskOracle) (q1 q2 : ℚ) :
    find_repeats mask [65, 67, 71, 84, 65, 67, 71, 84] 4 true true false q1 false q2
      = (false, true, 4) := rfl

/-- C9: Filters invoked with tr_length 0 return false (the NaN comparison),
and on the not-found paths (DTR enabled but nothing found with ITR disabled,
or the ITR branch taken and nothing found) find_repeats returns
(false, false, 0) without raising any error, whatever filters are
configured. -/
theorem c9_zero_length_path (mask : MaskOracle) (sequence : List ℕ) (min_length : ℕ)
    (ilc iamb : Bool) (mlc mamb : ℚ) :
    evaluate_tr_complexity mask sequence 0 mlc = false
  ∧ evaluate_ambiguous_bases sequence 0 mamb = false
  ∧ ((find_dtr sequence min_length).1 = false →
      find_repeats mask sequence min_length false false ilc mlc iamb mamb
        = (false, false, 0))
  ∧ (∀ ddtr : Bool, (find_itr sequence min_length).1 = false →
      (ddtr = true ∨ (find_dtr sequence min_length).1 = false) →
      find_repeats mask sequence min_length ddtr true ilc mlc iamb mamb
        = (false, false, 0)) := by
  refine ⟨evaluate_tr_complexity_zero mask sequence mlc,
    evaluate_ambiguous_bases_zero sequence mamb, ?_, ?_⟩
  · intro hdtr
    have hd0 := dtr_not_found sequence min_length hdtr
    simp [find_repeats, hd0, evaluate_tr_complexity_zero, evaluate_ambiguous_bases_zero]
  · intro ddtr hitr hbranch
    have hi0 := itr_not_found sequence min_length hitr
    rcases hbranch with hb | hb
    · subst hb
      simp [find_repeats, hi0, evaluate_tr_complexity_zero, evaluate_ambiguous_bases_zero]
    · have hd0 := dtr_not_found sequence min_length hb
      simp [find_repeats, hd0, hi0, evaluate_tr_complexity_zero,
        evaluate_ambiguous_bases_zero]

/-- Witness for C9: the two-byte sequence AC with min_length 5 on both
not-found paths, once with the complexity filter configured and once with the
ambiguity filter configured. -/
theorem c9_witness :
    find_repeats (fun _ _ _ => []) [65, 67] 5 false false true oneHalf false oneHalf
      = (false, false, 0)
  ∧ find_repeats (fun _ _ _ => []) [65, 67] 5 true true false oneHalf true oneHalf
      = (false, false, 0) :=
  ⟨(c9_zero_length_path (fun _ _ _ => []) [65, 67] 5 true false oneHalf oneHalf).2.2.1
      (by decide),
   (c9_zero_length_path (fun _ _ _ => []) [65, 67] 5 false true oneHalf oneHalf).2.2.2 true
      (by decide) (Or.inl rfl)⟩

/-- C4: Whenever a detector finds a repeat of length L and the configured
filter rejects it, find_repeats returns (false, false, L) with the rejected
nonzero length still reported, for both detectors and both filters; and when
neither detector finds anything, the reported tr_length is 0. -/
theorem c4_rejected_length_reported (mask : MaskOracle) (sequence : List ℕ)
    (min_length L : ℕ) (ddtr eitr ilc iamb : Bool) (mlc mamb : ℚ)
    (hmin : 0 < min_length) :
    (find_dtr sequence min_length = (true, L) →
        evaluate_tr_complexity mask sequence L mlc = false →
        find_repeats mask sequence min_length false eitr true mlc iamb mamb
          = (false, false, L) ∧ L ≠ 0)
  ∧ (find_dtr sequence min_length = (true, L) →
        evaluate_ambiguous_bases sequence L mamb = false →
        find_repeats mask sequence min_length false eitr false mlc true mamb
          = (false, false, L) ∧ L ≠ 0)
  ∧ (find_itr sequence min_length = (true, L) →
        (ddtr = true ∨ (find_dtr sequence min_length).1 = false) →
        evaluate_tr_complexity mask sequence L mlc = false →
        find_repeats mask sequence min_length ddtr true true mlc iamb mamb
          = (false, false, L) ∧ L ≠ 0)
  ∧ (find_itr sequence min_length = (true, L) →
        (ddtr = true ∨ (find_dtr sequence min_length).1 = false) →
        evaluate_ambiguous_bases sequence L mamb = false →
        find_repeats mask sequence min_length ddtr true false mlc true mamb
          = (false, false, L) ∧ L ≠ 0)
  ∧ ((find_dtr sequence min_length).1 = false → (find_itr sequence min_length).1 = false →
        (find_repeats mask sequence min_length ddtr eitr ilc mlc iamb mamb).2.2 = 0) := by
  refine ⟨?_, ?_, ?_, ?_, ?_⟩
  · intro hd he
    have h1 : min_length ≤ (find_dtr sequence min_length).2 :=
      dtr_found_min sequence min_length (by rw [hd])
    rw [hd] at h1
    exact ⟨by simp [find_repeats, hd, he], by omega⟩
  · intro hd he
    have h1 : min_length ≤ (find_dtr sequence min_length).2 :=
      dtr_found_min sequence min_length (by rw [hd])
    rw [hd] at h1
    exact ⟨by simp [find_repeats, hd, he], by omega⟩
  · intro hi hb he
    have h1 : min_length ≤ (find_itr sequence min_length).2 :=
      itr_found_min sequence min_length (by rw [hi])
    rw [hi] at h1
    refine ⟨?_, by omega⟩
    rcases hb with rfl | hb
    · simp [find_repeats, hi, he]
    · have hd0 := dtr_not_found sequence min_length hb
      simp [find_repeats, hd0, hi, he]
  · intro hi hb he
    have h1 : min_length ≤ (find_itr sequence min_length).2 :=
      itr_found_min sequence min_length (by rw [hi])
    rw [hi] at h1
    refine ⟨?_, by omega⟩
    rcases hb with rfl | hb
    · simp [find_repeats, hi, he]
    · have hd0 := dtr_not_found sequence min_length hb
      simp [find_repeats, hd0, hi, he]
  · intro hd hi
    have hd0 := dtr_not_found sequence min_length hd
    have hi0 := itr_not_found sequence min_length hi
    cases ddtr <;> cases eitr <;> cases ilc <;> cases iamb <;>
      simp [find_repeats, hd0, hi0, evaluate_tr_complexity_zero,
        evaluate_ambiguous_bases_zero]

/-- Witness for C4: concrete rejections for all four detector and filter
combinations (a homopolymer DTR rejected by a fully covering low-complexity
mask, an all-N DTR and ITR rejected by the ambiguity filter, the ACGTACGT ITR
rejected by the mask), plus a not-found case reporting length 0. -/
theorem c4_witness :
    (find_repeats (fun _ _ _ => [(0, 8)]) [65, 65, 65, 65] 2 false false true oneHalf
        false oneHalf = (false, false, 2) ∧ (2 : ℕ) ≠ 0)
  ∧ (find_repeats (fun _ _ _ => [(0, 8)]) [78, 78, 78, 78] 2 false false false oneHalf
        true oneHalf = (false, false, 2) ∧ (2 : ℕ) ≠ 0)
  ∧ (find_repeats (fun _ _ _ => [(0, 8)]) [65, 67, 71, 84, 65, 67, 71, 84] 4 true true true
        oneHalf false oneHalf = (false, false, 4) ∧ (4 : ℕ) ≠ 0)
  ∧ (find_repeats (fun _ _ _ => [(0, 8)]) [78, 78, 78, 78] 2 true true false oneHalf
        true oneHalf = (false, false, 2) ∧ (2 : ℕ) ≠ 0)
  ∧ (find_repeats (fun _ _ _ => []) [65, 67] 5 false false false oneHalf false oneHalf).2.2
      = 0 :=
  ⟨(c4_rejected_length_reported (fun _ _ _ => [(0, 8)]) [65, 65, 65, 65] 2 2 false false
      false false oneHalf oneHalf (by decide)).1 (by decide) (by decide),
   (c4_rejected_length_reported (fun _ _ _ => [(0, 8)]) [78, 78, 78, 78] 2 2 false false
      false false oneHalf oneHalf (by decide)).2.1 (by decide) (by decide),
   (c4_rejected_length_reported (fun _ _ _ => [(0, 8)]) [65, 67, 71, 84, 65, 67, 71, 84] 4 4
      true false false false oneHalf oneHalf (by decide)).2.2.1 (by decide) (Or.inl rfl)
      (by decide),
   (c4_rejected_length_reported (fun _ _ _ => [(0, 8)]) [78, 78, 78, 78] 2 2 true false
      false false oneHalf oneHalf (by decide)).2.2.2.1 (by decide) (Or.inl rfl) (by decide),
   (c4_rejected_length_reported (fun _ _ _ => []) [65, 67] 5 0 false false false false
      oneHalf oneHalf (by decide)).2.2.2.2 (by decide) (by decide)⟩

/-- Scenario A of the spec, kept as a sanity check of the embedding: the
sequence ACGTACGT with min_length 4, DTR enabled and ITR disabled yields a
DTR of length 4. -/
theorem scenario_a :
    find_repeats (fun _ _ _ => []) [65, 67, 71, 84, 65, 67, 71, 84] 4 false false false
      oneHalf false oneHalf = (true, false, 4) := by decide

end TrTrimmer
